import Mathlib

/-!
Verification of the mrename core (src/core.py) against its specification.

The embedding models Python strings as `List Char` (ASCII range; the source's
`str.isdigit` and `int()` are modelled on ASCII input), the flat directory a
run operates on as a list of entries, and the fatal `error_exit` path as an
error value threaded through the computations.
-/

namespace Mrename

/-- A Python string, modelled as its list of characters. -/
abbrev PyStr := List Char

/-- The fatal conditions raised by the core via `error_exit` (core.py line 27):
only the invalid-format-hint condition. -/
inductive Fatal where
  | invalidFormat
deriving DecidableEq, Repr

/-- Result of a core computation: either a fatal `error_exit` or a value. -/
inductive PyResult (α : Type) where
  | error : Fatal → PyResult α
  | ok : α → PyResult α
deriving DecidableEq, Repr

/-- Result of a bulk operation, carrying the directory state both on normal
completion and at the moment of a fatal abort. -/
inductive BulkResult (σ : Type) (α : Type) where
  | fatal : Fatal → σ → BulkResult σ α
  | done : α → σ → BulkResult σ α
deriving DecidableEq, Repr

/-- The placeholder token searched for in a format hint: the two-character
string consisting of an opening and a closing curly brace. -/
def placeholder : PyStr := [Char.ofNat 123, Char.ofNat 125]

/-- Python `haystack.index(pat)` (as used in core.py line 25): index of the
first occurrence of `pat` as a contiguous substring, `none` if absent. -/
def substrIndex (pat : PyStr) : PyStr → Option Nat
  | [] => if pat = [] then some 0 else none
  | c :: rest =>
    if pat.isPrefixOf (c :: rest) then some 0
    else (substrIndex pat rest).map (· + 1)

/-- Index of the last occurrence of `c` (Python `str.rfind`, returning `none`
instead of `-1` when absent). Used by `pathlib`'s stem/suffix. -/
def lastIdxOf (c : Char) : PyStr → Option Nat
  | [] => none
  | x :: xs =>
    match lastIdxOf c xs with
    | some i => some (i + 1)
    | none => if x = c then some 0 else none

/-- `pathlib.PurePath` splits a name into stem and suffix at the last dot,
provided that dot is neither the first nor the last character. -/
def splitExt (l : PyStr) : PyStr × PyStr :=
  match lastIdxOf '.' l with
  | none => (l, [])
  | some i => if 0 < i ∧ i < l.length - 1 then (l.take i, l.drop i) else (l, [])

/-- `pathlib.PurePath.stem` of a file name. -/
def stemL (l : PyStr) : PyStr := (splitExt l).1

/-- `pathlib.PurePath.suffix` of a file name. -/
def suffixL (l : PyStr) : PyStr := (splitExt l).2

/-- Value of a run of ASCII digit characters, as computed by Python `int` on a
digit string (leading zeros allowed). -/
def digitsToNat (l : PyStr) : Nat := l.foldl (fun a c => a * 10 + (c.toNat - 48)) 0

/-- The ASCII whitespace characters stripped by Python `int()` before parsing. -/
def isPyWs (c : Char) : Bool :=
  c = ' ' || c = '\t' || c = '\n' || c = '\r' || c = Char.ofNat 11 || c = Char.ofNat 12

/-- Strip leading and trailing whitespace, as Python `int()` does. -/
def stripWs (l : PyStr) : PyStr :=
  ((l.dropWhile isPyWs).reverse.dropWhile isPyWs).reverse

/-- Continuation of Python's integer-literal digit grammar after a first digit:
digits, with single underscores allowed only between digits. -/
def digitsTail : PyStr → Bool
  | [] => true
  | [c] => c.isDigit
  | c :: d :: r =>
    if c.isDigit then digitsTail (d :: r)
    else if c = '_' then d.isDigit && digitsTail r
    else false

/-- A non-empty digit run with single underscores between digits. -/
def pyDigits : PyStr → Bool
  | [] => false
  | c :: r => c.isDigit && digitsTail r

/-- Whether Python `int(s)` succeeds on `s` (ASCII range): optional surrounding
whitespace, optional single sign, then digits with underscores between them. -/
def pyIntOK (l : PyStr) : Bool :=
  match stripWs l with
  | [] => false
  | c :: r => if c = '+' ∨ c = '-' then pyDigits r else pyDigits (c :: r)

/-- The character for the decimal digit `n < 10`. -/
def digitChar (n : Nat) : Char := Char.ofNat (48 + n)

/-- Fuel-driven rendering of the decimal digits of `n` in front of `acc`;
adequate whenever `n < fuel`. -/
def natDigitsGo : Nat → Nat → PyStr → PyStr
  | 0, _, acc => acc
  | fuel + 1, n, acc =>
    if n < 10 then digitChar n :: acc
    else natDigitsGo fuel (n / 10) (digitChar (n % 10) :: acc)

/-- The decimal digits of `n`, most significant first. -/
def natDigits (n : Nat) : PyStr := natDigitsGo (n + 1) n []

/-- Python `"{:02d}".format(m)` for a non-negative `m`: decimal digits,
left-padded with a zero to a minimum width of two. -/
def py02dN (m : Nat) : PyStr :=
  let ds := natDigits m
  if ds.length < 2 then '0' :: ds else ds

/-- Python `"{:02d}".format(i)` (core.py line 59). Negative values render as a
sign followed by the digits (already at least two characters wide). -/
def py02d (i : Int) : PyStr :=
  if 0 ≤ i then py02dN i.toNat else '-' :: natDigits (-i).toNat

/-- Scan of core.py lines 31-39: take the leading ASCII-digit run of the
(possibly already truncated) filename; `int` of an empty run fails, giving the
sentinel `-1`, otherwise the run's value. -/
def scanFrom (l : PyStr) : Int :=
  let ds := l.takeWhile (fun c => c.isDigit)
  if ds = [] then -1 else (digitsToNat ds : Int)

/-- core.py `find_index` (lines 15-39). With a non-empty format hint the
filename is truncated at the position of the placeholder in the hint (a hint
without the placeholder is the fatal invalid-format condition); without a hint
leading non-digit characters are stripped. Then the leading digit run is
parsed, `-1` signalling that no index was found. -/
def find_index (filename : PyStr) (fmt : PyStr := []) : PyResult Int :=
  if fmt ≠ [] then
    match substrIndex placeholder fmt with
    | none => .error Fatal.invalidFormat
    | some k => .ok (scanFrom (filename.drop k))
  else
    .ok (scanFrom (filename.dropWhile (fun c => !c.isDigit)))

/-- core.py `is_formatted` (lines 41-50): the stem starts with the prefix and
Python `int()` accepts the remainder. -/
def is_formatted (filename pre : PyStr) : Bool :=
  let nm := stemL filename
  if pre.isPrefixOf nm then pyIntOK (nm.drop pre.length) else false

/-- core.py `formatted_filename` (lines 52-61): empty string when no index is
found, else prefix ++ zero-padded index ++ (single final) extension. -/
def formatted_filename (filename pre : PyStr) (fmt : PyStr := []) : PyResult PyStr :=
  match find_index filename fmt with
  | .error e => .error e
  | .ok index => if index ≠ -1 then .ok (pre ++ py02d index ++ suffixL filename) else .ok []

/-- A directory entry: name, whether it is a sub-directory, and an opaque
content identifier for regular files. -/
structure Entry where
  name : PyStr
  isDir : Bool
  content : Nat
deriving DecidableEq, Repr

/-- core.py `to_process` (lines 63-65): direct children that are neither
directories nor hidden (name starting with a dot). -/
def to_process (d : List Entry) : List Entry :=
  d.filter (fun e => !(e.isDir || ['.'].isPrefixOf e.name))

/-- Filesystem rename of `old` to `new` inside directory `d`. -/
def fsRename (d : List Entry) (old new : PyStr) : List Entry :=
  d.map (fun e => if e.name = old then { e with name := new } else e)

/-- core.py `rename_file` (lines 67-78), over a directory state `d`: skip
already-formatted files, skip when no index is found, rename only when the
target name differs from the source and does not already exist. -/
def rename_file (d : List Entry) (path pre : PyStr) (fmt : PyStr := []) :
    PyResult (Bool × List Entry) :=
  if is_formatted path pre then .ok (false, d)
  else
    match formatted_filename path pre fmt with
    | .error e => .error e
    | .ok nm =>
      if nm = [] then .ok (false, d)
      else if nm ≠ path ∧ nm ∉ d.map (·.name) then .ok (true, fsRename d path nm)
      else .ok (false, d)

/-- Loop of core.py `rename_all_files_in_dir` (lines 85-92): the candidate
list is the snapshot taken before the loop; the directory state is threaded
through; a fatal condition aborts with the state at that moment. -/
def renameLoop (pre fmt : PyStr) :
    List PyStr → List Entry → Nat → Nat → BulkResult (List Entry) (Nat × Nat × Nat)
  | [], d, r, u => .done (r, u, r + u) d
  | f :: fs, d, r, u =>
    match rename_file d f pre fmt with
    | .error e => .fatal e d
    | .ok (true, d2) => renameLoop pre fmt fs d2 (r + 1) u
    | .ok (false, d2) => renameLoop pre fmt fs d2 r (u + 1)

/-- core.py `rename_all_files_in_dir` (lines 80-92). -/
def rename_all_files_in_dir (d : List Entry) (pre : PyStr) (fmt : PyStr := []) :
    BulkResult (List Entry) (Nat × Nat × Nat) :=
  renameLoop pre fmt ((to_process d).map (·.name)) d 0 0

/-- A destination-directory entry: file name and content. -/
abbrev DestFile := PyStr × Nat

/-- The copy-or-skip step of core.py lines 105-110: `shutil.copy` appends the
file under the computed name unless a file with that name already exists. -/
def copyInto (dest : List DestFile) (nm : PyStr) (content : Nat) : Bool × List DestFile :=
  if nm ∈ dest.map Prod.fst then (false, dest) else (true, dest ++ [(nm, content)])

/-- core.py `copy_file` (lines 94-110): an already-formatted source keeps its
name; otherwise the formatted name is computed, the empty result meaning skip;
the copy is skipped if the target already exists in `dest`. -/
def copy_file (src : Entry) (dest : List DestFile) (pre : PyStr) (fmt : PyStr := []) :
    PyResult (Bool × List DestFile) :=
  if is_formatted src.name pre then .ok (copyInto dest src.name src.content)
  else
    match formatted_filename src.name pre fmt with
    | .error e => .error e
    | .ok nm => if nm = [] then .ok (false, dest) else .ok (copyInto dest nm src.content)

/-- Loop of core.py `copy_all_files_in_dir` (lines 117-124). -/
def copyLoop (pre fmt : PyStr) :
    List Entry → List DestFile → Nat → Nat → BulkResult (List DestFile) (Nat × Nat × Nat)
  | [], dest, c, u => .done (c, u, c + u) dest
  | f :: fs, dest, c, u =>
    match copy_file f dest pre fmt with
    | .error e => .fatal e dest
    | .ok (true, dest2) => copyLoop pre fmt fs dest2 (c + 1) u
    | .ok (false, dest2) => copyLoop pre fmt fs dest2 c (u + 1)

/-- core.py `copy_all_files_in_dir` (lines 112-124). -/
def copy_all_files_in_dir (src : List Entry) (dest : List DestFile) (pre : PyStr)
    (fmt : PyStr := []) : BulkResult (List DestFile) (Nat × Nat × Nat) :=
  copyLoop pre fmt (to_process src) dest 0 0

/-! ### Helper lemmas about the digit renderer -/

theorem digitChar_isDigit : ∀ k, k < 10 → (digitChar k).isDigit = true := by decide

theorem digitChar_toNat : ∀ k, k < 10 → (digitChar k).toNat = 48 + k := by decide

theorem natDigitsGo_acc (fuel : Nat) : ∀ (n : Nat) (acc : PyStr),
    natDigitsGo fuel n acc = natDigitsGo fuel n [] ++ acc := by
  induction fuel with
  | zero => intro n acc; simp [natDigitsGo]
  | succ f ih =>
    intro n acc
    by_cases h : n < 10
    · simp [natDigitsGo, h]
    · simp only [natDigitsGo, if_neg h]
      rw [ih (n / 10) (digitChar (n % 10) :: acc), ih (n / 10) [digitChar (n % 10)]]
      simp

theorem natDigitsGo_adequate (f₁ : Nat) : ∀ (f₂ n : Nat) (acc : PyStr), n < f₁ → n < f₂ →
    natDigitsGo f₁ n acc = natDigitsGo f₂ n acc := by
  induction f₁ with
  | zero => intro f₂ n acc h1 _; omega
  | succ f ih =>
    intro f₂ n acc h1 h2
    cases f₂ with
    | zero => omega
    | succ g =>
      by_cases h : n < 10
      · simp [natDigitsGo, h]
      · have hd : n / 10 < n := Nat.div_lt_self (by omega) (by omega)
        simp only [natDigitsGo, if_neg h]
        exact ih g (n / 10) _ (by omega) (by omega)

theorem natDigits_lt (n : Nat) (h : n < 10) : natDigits n = [digitChar n] := by
  simp [natDigits, natDigitsGo, h]

theorem natDigits_ge (n : Nat) (h : 10 ≤ n) :
    natDigits n = natDigits (n / 10) ++ [digitChar (n % 10)] := by
  have hd : n / 10 < n := Nat.div_lt_self (by omega) (by omega)
  have h1 : natDigits n = natDigitsGo n (n / 10) [digitChar (n % 10)] := by
    simp [natDigits, natDigitsGo, Nat.not_lt.mpr h]
  rw [h1, natDigitsGo_acc,
    natDigitsGo_adequate n (n / 10 + 1) (n / 10) [] (by omega) (by omega)]
  rfl

theorem natDigits_ne_nil (n : Nat) : natDigits n ≠ [] := by
  by_cases h : n < 10
  · rw [natDigits_lt n h]; simp
  · rw [natDigits_ge n (by omega)]; simp

theorem natDigits_all_digit (n : Nat) : ∀ c ∈ natDigits n, c.isDigit = true := by
  induction n using Nat.strong_induction_on with
  | _ n ih =>
    by_cases h : n < 10
    · rw [natDigits_lt n h]
      intro c hc
      rw [List.mem_singleton] at hc
      subst hc
      exact digitChar_isDigit n h
    · rw [natDigits_ge n (by omega)]
      intro c hc
      rcases List.mem_append.1 hc with h1 | h1
      · exact ih (n / 10) (Nat.div_lt_self (by omega) (by omega)) c h1
      · rw [List.mem_singleton] at h1
        subst h1
        exact digitChar_isDigit _ (Nat.mod_lt _ (by omega))

theorem natDigits_len2 (n : Nat) (h : 10 ≤ n) : 2 ≤ (natDigits n).length := by
  rw [natDigits_ge n h]
  have := natDigits_ne_nil (n / 10)
  have hpos : 0 < (natDigits (n / 10)).length := List.length_pos.2 this
  simp only [List.length_append, List.length_cons, List.length_nil]
  omega

theorem digitsToNat_append (l : PyStr) (c : Char) :
    digitsToNat (l ++ [c]) = digitsToNat l * 10 + (c.toNat - 48) := by
  simp [digitsToNat, List.foldl_append]

theorem digitsToNat_natDigits (n : Nat) : digitsToNat (natDigits n) = n := by
  induction n using Nat.strong_induction_on with
  | _ n ih =>
    by_cases h : n < 10
    · rw [natDigits_lt n h]
      simp only [digitsToNat, List.foldl_cons, List.foldl_nil]
      rw [digitChar_toNat n h]
      omega
    · rw [natDigits_ge n (by omega), digitsToNat_append,
        ih (n / 10) (Nat.div_lt_self (by omega) (by omega)),
        digitChar_toNat _ (Nat.mod_lt _ (by omega))]
      omega

theorem py02dN_ne_nil (m : Nat) : py02dN m ≠ [] := by
  unfold py02dN
  by_cases h : (natDigits m).length < 2
  · simp [h]
  · simp only [if_neg h]
    exact natDigits_ne_nil m

theorem py02dN_all (m : Nat) : ∀ c ∈ py02dN m, c.isDigit = true := by
  unfold py02dN
  intro c hc
  by_cases h : (natDigits m).length < 2
  · rw [if_pos h] at hc
    rcases List.mem_cons.1 hc with h1 | h1
    · subst h1; decide
    · exact natDigits_all_digit m c h1
  · rw [if_neg h] at hc
    exact natDigits_all_digit m c hc

theorem py02dN_lt100 : ∀ m, m < 100 → (py02dN m).length = 2 ∧ digitsToNat (py02dN m) = m := by
  decide

theorem py02dN_eq_natDigits (m : Nat) (h : 10 ≤ m) : py02dN m = natDigits m := by
  unfold py02dN
  have := natDigits_len2 m h
  simp only [if_neg (by omega : ¬ (natDigits m).length < 2)]

/-! ### Helper lemmas about the int() model -/

theorem isPyWs_of_digit (c : Char) (h : c.isDigit = true) : isPyWs c = false := by
  cases hw : isPyWs c
  · rfl
  · exfalso
    simp only [isPyWs, Bool.or_eq_true, decide_eq_true_eq] at hw
    rcases hw with ((((h1 | h1) | h1) | h1) | h1) | h1 <;> (subst h1; simp at h)

theorem digit_not_dot (c : Char) (h : c.isDigit = true) : c ≠ '.' := by
  intro hc; subst hc; simp at h

theorem dropWhile_all_false (p : Char → Bool) (l : PyStr)
    (h : ∀ c ∈ l, p c = false) : l.dropWhile p = l := by
  cases l with
  | nil => rfl
  | cons c t => simp [List.dropWhile, h c (List.mem_cons_self c t)]

theorem stripWs_digits (l : PyStr) (h : ∀ c ∈ l, c.isDigit = true) : stripWs l = l := by
  have hws : ∀ c ∈ l, isPyWs c = false := fun c hc => isPyWs_of_digit c (h c hc)
  have h1 : l.dropWhile isPyWs = l := dropWhile_all_false _ _ hws
  have h2 : l.reverse.dropWhile isPyWs = l.reverse :=
    dropWhile_all_false _ _ (fun c hc => hws c (List.mem_reverse.1 hc))
  simp [stripWs, h1, h2]

theorem digitsTail_all (l : PyStr) (h : ∀ c ∈ l, c.isDigit = true) : digitsTail l = true := by
  induction l with
  | nil => rfl
  | cons c t ih =>
    have hc : c.isDigit = true := h c (List.mem_cons_self c t)
    cases t with
    | nil => simpa [digitsTail] using hc
    | cons d r =>
      rw [show digitsTail (c :: d :: r) =
          (if c.isDigit then digitsTail (d :: r) else
            if c = '_' then d.isDigit && digitsTail r else false) from rfl,
        if_pos hc]
      exact ih (fun x hx => h x (List.mem_cons_of_mem c hx))

theorem digit_not_sign (c : Char) (h : c.isDigit = true) : ¬ (c = '+' ∨ c = '-') := by
  intro hs
  rcases hs with h1 | h1 <;> (subst h1; simp at h)

theorem pyIntOK_digits (l : PyStr) (hne : l ≠ []) (h : ∀ c ∈ l, c.isDigit = true) :
    pyIntOK l = true := by
  have hs : stripWs l = l := stripWs_digits l h
  unfold pyIntOK
  rw [hs]
  cases l with
  | nil => exact absurd rfl hne
  | cons c t =>
    have hc : c.isDigit = true := h c (List.mem_cons_self c t)
    show (if c = '+' ∨ c = '-' then pyDigits t else pyDigits (c :: t)) = true
    rw [if_neg (digit_not_sign c hc)]
    show (c.isDigit && digitsTail t) = true
    rw [hc, digitsTail_all t (fun x hx => h x (List.mem_cons_of_mem c hx))]
    rfl

theorem pyIntOK_nil : pyIntOK [] = false := rfl

/-! ### Helper lemmas about stem and suffix -/

theorem lastIdxOf_eq_none (c : Char) (l : PyStr) (h : c ∉ l) : lastIdxOf c l = none := by
  induction l with
  | nil => rfl
  | cons x xs ih =>
    have hx : ¬ x = c := fun he => h (he ▸ List.mem_cons_self x xs)
    have hxs : c ∉ xs := fun hm => h (List.mem_cons_of_mem x hm)
    simp only [lastIdxOf, ih hxs, if_neg hx]

theorem not_mem_of_lastIdxOf (c : Char) (l : PyStr) (h : lastIdxOf c l = none) : c ∉ l := by
  induction l with
  | nil => simp
  | cons x xs ih =>
    intro hmem
    simp only [lastIdxOf] at h
    cases hx : lastIdxOf c xs with
    | some i => rw [hx] at h; cases h
    | none =>
      rw [hx] at h
      by_cases hxc : x = c
      · rw [if_pos hxc] at h; cases h
      · rcases List.mem_cons.1 hmem with h1 | h1
        · exact hxc h1.symm
        · exact ih hx h1

theorem lastIdxOf_append_last (c : Char) (ys : PyStr) (hc : c ∉ ys) :
    ∀ xs : PyStr, lastIdxOf c (xs ++ c :: ys) = some xs.length := by
  intro xs
  induction xs with
  | nil =>
    rw [List.nil_append]
    simp [lastIdxOf, lastIdxOf_eq_none c ys hc]
  | cons x xs ih =>
    rw [List.cons_append]
    simp [lastIdxOf, ih]

theorem lastIdxOf_spec (c : Char) (l : PyStr) : ∀ i, lastIdxOf c l = some i →
    ∃ ys, l.drop i = c :: ys ∧ c ∉ ys := by
  induction l with
  | nil => intro i h; cases h
  | cons x xs ih =>
    intro i h
    simp only [lastIdxOf] at h
    cases hx : lastIdxOf c xs with
    | some j =>
      rw [hx] at h
      injection h with h
      subst h
      obtain ⟨ys, h1, h2⟩ := ih j hx
      exact ⟨ys, by simpa using h1, h2⟩
    | none =>
      rw [hx] at h
      by_cases hxc : x = c
      · rw [if_pos hxc] at h
        injection h with h
        subst h
        exact ⟨xs, by simp [hxc], not_mem_of_lastIdxOf c xs hx⟩
      · rw [if_neg hxc] at h; cases h

theorem splitExt_dotfree (l : PyStr) (h : '.' ∉ l) : stemL l = l ∧ suffixL l = [] := by
  have hi : lastIdxOf '.' l = none := lastIdxOf_eq_none '.' l h
  constructor
  · show (splitExt l).1 = l
    unfold splitExt
    rw [hi]
  · show (splitExt l).2 = []
    unfold splitExt
    rw [hi]

theorem stem_append_suffix (l : PyStr) : stemL l ++ suffixL l = l := by
  unfold stemL suffixL splitExt
  cases h : lastIdxOf '.' l with
  | none => simp
  | some i =>
    by_cases hc : 0 < i ∧ i < l.length - 1
    · simp [hc]
    · simp [hc]

theorem suffix_structure (l : PyStr) (h : suffixL l ≠ []) :
    ∃ r, suffixL l = '.' :: r ∧ r ≠ [] ∧ '.' ∉ r := by
  cases hi : lastIdxOf '.' l with
  | none =>
    exfalso
    apply h
    show (splitExt l).2 = []
    unfold splitExt
    rw [hi]
  | some i =>
    by_cases hc : 0 < i ∧ i < l.length - 1
    · have hsfx : suffixL l = l.drop i := by
        show (splitExt l).2 = l.drop i
        unfold splitExt
        rw [hi]
        show (if 0 < i ∧ i < l.length - 1 then (l.take i, l.drop i) else (l, [])).2 = l.drop i
        rw [if_pos hc]
      obtain ⟨ys, h1, h2⟩ := lastIdxOf_spec '.' l i hi
      refine ⟨ys, by rw [hsfx, h1], ?_, h2⟩
      have hlen : (l.drop i).length = l.length - i := List.length_drop i l
      rw [h1] at hlen
      simp only [List.length_cons] at hlen
      intro hnil
      subst hnil
      simp only [List.length_nil] at hlen
      omega
    · exfalso
      apply h
      show (splitExt l).2 = []
      unfold splitExt
      rw [hi]
      show (if 0 < i ∧ i < l.length - 1 then (l.take i, l.drop i) else (l, [])).2 = []
      rw [if_neg hc]

theorem stem_of_shape (pre D r : PyStr) (hD : D ≠ []) (hr : r ≠ []) (hdot : '.' ∉ r) :
    stemL (pre ++ D ++ ('.' :: r)) = pre ++ D := by
  have hidx : lastIdxOf '.' ((pre ++ D) ++ '.' :: r) = some (pre ++ D).length :=
    lastIdxOf_append_last '.' r hdot (pre ++ D)
  have hlen : ((pre ++ D) ++ '.' :: r).length = (pre ++ D).length + 1 + r.length := by
    simp [List.length_append]
    omega
  have hDpos : 0 < D.length := List.length_pos.2 hD
  have hrpos : 0 < r.length := List.length_pos.2 hr
  have hcond : 0 < (pre ++ D).length ∧
      (pre ++ D).length < (pre ++ D ++ '.' :: r).length - 1 := by
    constructor
    · simp only [List.length_append]; omega
    · rw [hlen]; omega
  show (splitExt (pre ++ D ++ '.' :: r)).1 = pre ++ D
  unfold splitExt
  rw [hidx]
  show (if 0 < (pre ++ D).length ∧ (pre ++ D).length < (pre ++ D ++ '.' :: r).length - 1
      then ((pre ++ D ++ '.' :: r).take (pre ++ D).length,
        (pre ++ D ++ '.' :: r).drop (pre ++ D).length)
      else (pre ++ D ++ '.' :: r, [])).1 = pre ++ D
  rw [if_pos hcond]
  exact List.take_left (pre ++ D) ('.' :: r)

/-! ### A helper lemma about is_formatted on rendered names -/

theorem is_formatted_of_shape (pre D sfx : PyStr) (hD : D ≠ [])
    (hdig : ∀ c ∈ D, c.isDigit = true)
    (hs : (sfx = [] ∧ '.' ∉ pre) ∨ ∃ r, sfx = '.' :: r ∧ r ≠ [] ∧ '.' ∉ r) :
    is_formatted (pre ++ D ++ sfx) pre = true := by
  have hstem : stemL (pre ++ D ++ sfx) = pre ++ D := by
    rcases hs with ⟨hnil, hdot⟩ | ⟨r, hr, hrne, hrdot⟩
    · subst hnil
      rw [List.append_nil]
      refine (splitExt_dotfree (pre ++ D) ?_).1
      intro hmem
      rcases List.mem_append.1 hmem with h1 | h1
      · exact hdot h1
      · exact digit_not_dot _ (hdig _ h1) rfl
    · subst hr
      exact stem_of_shape pre D r hD hrne hrdot
  unfold is_formatted
  rw [hstem, if_pos (List.isPrefixOf_iff_prefix.2 (List.prefix_append pre D)),
    List.drop_left pre D]
  exact pyIntOK_digits D hD hdig

/-! ### Value range of find_index -/

theorem scanFrom_val (l : PyStr) : scanFrom l = -1 ∨ 0 ≤ scanFrom l := by
  unfold scanFrom
  by_cases h : l.takeWhile (fun c => c.isDigit) = []
  · left; simp [h]
  · right; simp [h]

theorem find_index_val (f fmt : PyStr) (v : Int) (h : find_index f fmt = .ok v) :
    v = -1 ∨ 0 ≤ v := by
  unfold find_index at h
  by_cases hf : fmt ≠ []
  · rw [if_pos hf] at h
    cases hk : substrIndex placeholder fmt with
    | none => rw [hk] at h; cases h
    | some k =>
      rw [hk] at h
      injection h with h
      subst h
      exact scanFrom_val _
  · rw [if_neg hf] at h
    injection h with h
    subst h
    exact scanFrom_val _

/-! ### Evaluation lemmas exposing the branch structure -/

theorem formatted_filename_eval (f pre fmt : PyStr) (i : Int)
    (h : find_index f fmt = .ok i) :
    formatted_filename f pre fmt =
      if i ≠ -1 then .ok (pre ++ py02d i ++ suffixL f) else .ok [] := by
  rw [formatted_filename, h]

theorem formatted_filename_err (f pre fmt : PyStr) (e : Fatal)
    (h : find_index f fmt = .error e) : formatted_filename f pre fmt = .error e := by
  rw [formatted_filename, h]

theorem rename_file_eval (d : List Entry) (f pre fmt nm : PyStr)
    (hif : is_formatted f pre = false)
    (h : formatted_filename f pre fmt = .ok nm) :
    rename_file d f pre fmt =
      if nm = [] then .ok (false, d)
      else if nm ≠ f ∧ nm ∉ d.map (·.name) then .ok (true, fsRename d f nm)
      else .ok (false, d) := by
  rw [rename_file, if_neg (by rw [hif]; exact Bool.false_ne_true), h]

theorem copy_file_eval (src : Entry) (dest : List DestFile) (pre fmt nm : PyStr)
    (hif : is_formatted src.name pre = false)
    (h : formatted_filename src.name pre fmt = .ok nm) :
    copy_file src dest pre fmt =
      if nm = [] then .ok (false, dest) else .ok (copyInto dest nm src.content) := by
  rw [copy_file, if_neg (by rw [hif]; exact Bool.false_ne_true), h]

/-! ### Loop invariants of the bulk operations -/

theorem renameLoop_counts (pre fmt : PyStr) :
    ∀ (cs : List PyStr) (d : List Entry) (r u a b t : Nat) (d' : List Entry),
      renameLoop pre fmt cs d r u = .done (a, b, t) d' →
      a + b = t ∧ t = (r + u) + cs.length := by
  intro cs
  induction cs with
  | nil =>
    intro d r u a b t d' hh
    simp only [renameLoop, BulkResult.done.injEq, Prod.mk.injEq] at hh
    obtain ⟨⟨h1, h2, h3⟩, _⟩ := hh
    subst h1; subst h2; subst h3
    simp
  | cons c cs ih =>
    intro d r u a b t d' hh
    simp only [renameLoop] at hh
    cases hrf : rename_file d c pre fmt with
    | error e => rw [hrf] at hh; cases hh
    | ok p =>
      obtain ⟨b', d2⟩ := p
      rw [hrf] at hh
      cases b' with
      | true =>
        have := ih d2 (r + 1) u a b t d' hh
        refine ⟨this.1, ?_⟩
        rw [this.2]
        simp only [List.length_cons]
        omega
      | false =>
        have := ih d2 r (u + 1) a b t d' hh
        refine ⟨this.1, ?_⟩
        rw [this.2]
        simp only [List.length_cons]
        omega

theorem copyLoop_counts (pre fmt : PyStr) :
    ∀ (cs : List Entry) (dest : List DestFile) (r u a b t : Nat) (dest' : List DestFile),
      copyLoop pre fmt cs dest r u = .done (a, b, t) dest' →
      a + b = t ∧ t = (r + u) + cs.length := by
  intro cs
  induction cs with
  | nil =>
    intro dest r u a b t dest' hh
    simp only [copyLoop, BulkResult.done.injEq, Prod.mk.injEq] at hh
    obtain ⟨⟨h1, h2, h3⟩, _⟩ := hh
    subst h1; subst h2; subst h3
    simp
  | cons c cs ih =>
    intro dest r u a b t dest' hh
    simp only [copyLoop] at hh
    cases hrf : copy_file c dest pre fmt with
    | error e => rw [hrf] at hh; cases hh
    | ok p =>
      obtain ⟨b', dest2⟩ := p
      rw [hrf] at hh
      cases b' with
      | true =>
        have := ih dest2 (r + 1) u a b t dest' hh
        refine ⟨this.1, ?_⟩
        rw [this.2]
        simp only [List.length_cons]
        omega
      | false =>
        have := ih dest2 r (u + 1) a b t dest' hh
        refine ⟨this.1, ?_⟩
        rw [this.2]
        simp only [List.length_cons]
        omega

theorem renameLoop_fatal (pre h : PyStr) (hne : h ≠ [])
    (hbad : substrIndex placeholder h = none) :
    ∀ (cs : List PyStr) (d : List Entry) (r u : Nat),
      (∃ f ∈ cs, is_formatted f pre = false) →
      renameLoop pre h cs d r u = .fatal Fatal.invalidFormat d := by
  intro cs
  induction cs with
  | nil =>
    intro d r u hex
    obtain ⟨f, hf, _⟩ := hex
    cases hf
  | cons c cs ih =>
    intro d r u hex
    obtain ⟨f, hf, hnf⟩ := hex
    by_cases hc : is_formatted c pre = true
    · have hskip : rename_file d c pre h = .ok (false, d) := by
        simp [rename_file, hc]
      simp only [renameLoop, hskip]
      apply ih
      rcases List.mem_cons.1 hf with h1 | h1
      · subst h1; rw [hc] at hnf; cases hnf
      · exact ⟨f, h1, hnf⟩
    · have habort : rename_file d c pre h = .error Fatal.invalidFormat := by
        rw [Bool.not_eq_true] at hc
        simp [rename_file, hc, formatted_filename, find_index, hne, hbad]
      simp only [renameLoop, habort]

theorem renameLoop_all_formatted (pre h : PyStr) :
    ∀ (cs : List PyStr) (d : List Entry) (r u : Nat),
      (∀ f ∈ cs, is_formatted f pre = true) →
      renameLoop pre h cs d r u = .done (r, u + cs.length, r + (u + cs.length)) d := by
  intro cs
  induction cs with
  | nil =>
    intro d r u _
    simp [renameLoop]
  | cons c cs ih =>
    intro d r u hall
    have hc : is_formatted c pre = true := hall c (List.mem_cons_self c cs)
    have hskip : rename_file d c pre h = .ok (false, d) := by
      simp [rename_file, hc]
    simp only [renameLoop, hskip]
    rw [ih d r (u + 1) (fun f hf => hall f (List.mem_cons_of_mem c hf))]
    simp only [List.length_cons]
    have e1 : u + 1 + cs.length = u + (cs.length + 1) := by omega
    rw [e1]

/-! ### Claims -/

/-- C1 (amended): with a hint whose placeholder first occurs at offset `k`,
`find_index` parses the digit run at the very start of the remainder obtained
by dropping the first `k` characters of the filename, without skipping any
leading non-digit characters. It therefore agrees with the no-hint algorithm
on the remainder exactly when the remainder is empty or starts with a digit,
and returns the sentinel `-1` whenever the remainder starts with a non-digit
character. -/
theorem C1_hint_truncation (f h : PyStr) (k : Nat) (hne : h ≠ [])
    (hk : substrIndex placeholder h = some k) :
    find_index f h = .ok (scanFrom (f.drop k)) ∧
    ((∀ c, (f.drop k).head? = some c → c.isDigit = true) →
      find_index f h = find_index (f.drop k) []) ∧
    (∀ c, (f.drop k).head? = some c → c.isDigit = false → find_index f h = .ok (-1)) := by
  have h1 : find_index f h = .ok (scanFrom (f.drop k)) := by
    simp [find_index, hne, hk]
  refine ⟨h1, ?_, ?_⟩
  · intro hd
    rw [h1]
    cases hr : f.drop k with
    | nil => simp [find_index]
    | cons c cs =>
      have hc : c.isDigit = true := hd c (by rw [hr]; rfl)
      simp [find_index, List.dropWhile_cons, hc]
  · intro c hc hcd
    rw [h1]
    cases hr : f.drop k with
    | nil => rw [hr] at hc; cases hc
    | cons c' cs =>
      rw [hr] at hc
      injection hc with hc
      subst hc
      simp [scanFrom, List.takeWhile_cons, hcd]

/-- C1 witness: for filename `ab12cd` and hint `ab` followed by the
placeholder, `find_index` truncates two characters and parses the digit run of
the remainder. -/
theorem C1_hint_truncation_sat :
    find_index "ab12cd".data ("ab".data ++ placeholder) =
      .ok (scanFrom ("ab12cd".data.drop 2)) :=
  (C1_hint_truncation "ab12cd".data ("ab".data ++ placeholder) 2 (by decide) (by decide)).1

/-- C1 counterexample: the claim's equation fails when the character at the
placeholder offset is not a digit. With hint equal to the bare placeholder
(offset 0), the hint path on `a1` yields the sentinel `-1`, while the no-hint
algorithm on `a1` with its first 0 characters removed yields 1. -/
theorem C1_cex :
    substrIndex placeholder placeholder = some 0 ∧
    find_index "a1".data placeholder = .ok (-1) ∧
    find_index (List.drop 0 "a1".data) [] = .ok 1 := by decide

/-- C2 (amended): with format hint `scan_` ++ placeholder ++ `.jpg` the
filename `99scan_042.jpg` does NOT align with the hint: the placeholder
offset is 5, dropping 5 characters leaves `n_042.jpg`, which starts with a
non-digit, so `find_index` yields the sentinel `-1` and `formatted_filename`
returns the empty no-index signal. The aligned filename `scan_042.jpg` yields
index 42 and target name `p42.jpg` under prefix `p`. -/
theorem C2_scan_hint (hintScan : PyStr)
    (hdef : hintScan = "scan_".data ++ placeholder ++ ".jpg".data) :
    find_index "99scan_042.jpg".data hintScan = .ok (-1) ∧
    formatted_filename "99scan_042.jpg".data "p".data hintScan = .ok [] ∧
    find_index "scan_042.jpg".data hintScan = .ok 42 ∧
    formatted_filename "scan_042.jpg".data "p".data hintScan = .ok "p42.jpg".data := by
  subst hdef
  decide

/-- C2 witness: the amended scenario evaluated at the hint itself. -/
theorem C2_scan_hint_sat :
    find_index "99scan_042.jpg".data ("scan_".data ++ placeholder ++ ".jpg".data) =
      .ok (-1) :=
  (C2_scan_hint ("scan_".data ++ placeholder ++ ".jpg".data) rfl).1

/-- C2 counterexample: contrary to the claim, the filename `99scan_042.jpg`
with hint `scan_` ++ placeholder ++ `.jpg` and prefix `p` yields neither
extracted index 42 nor target name `p42.jpg`. -/
theorem C2_cex :
    ¬ (find_index "99scan_042.jpg".data ("scan_".data ++ placeholder ++ ".jpg".data) =
         .ok 42 ∧
       formatted_filename "99scan_042.jpg".data "p".data
         ("scan_".data ++ placeholder ++ ".jpg".data) = .ok "p42.jpg".data) := by decide

/-- C3 (amended): with a non-empty hint that lacks the placeholder, a bulk
rename aborts fatally if and only if some candidate is not already formatted
(the hint is only consulted for unformatted files); at the moment of the
abort the directory is unchanged — no file has been renamed. When every
candidate is already formatted the run completes normally, renaming nothing.
In copy mode, already-formatted candidates encountered before the first
unformatted one are copied before the abort, as the concrete run in the last
conjunct shows. -/
theorem C3_bad_hint (d : List Entry) (pre h : PyStr) (hne : h ≠ [])
    (hbad : substrIndex placeholder h = none) :
    ((∃ f ∈ (to_process d).map (·.name), is_formatted f pre = false) →
      rename_all_files_in_dir d pre h = .fatal Fatal.invalidFormat d) ∧
    ((∀ f ∈ (to_process d).map (·.name), is_formatted f pre = true) →
      rename_all_files_in_dir d pre h =
        .done (0, (to_process d).length, (to_process d).length) d) ∧
    (copy_all_files_in_dir [⟨"p01".data, false, 7⟩, ⟨"x".data, false, 8⟩] [] "p".data
        "x".data = .fatal Fatal.invalidFormat [("p01".data, 7)] ∧
      ([("p01".data, 7)] : List DestFile) ≠ []) := by
  refine ⟨?_, ?_, by decide⟩
  · intro hex
    exact renameLoop_fatal pre h hne hbad _ d 0 0 hex
  · intro hall
    have := renameLoop_all_formatted pre h ((to_process d).map (·.name)) d 0 0 hall
    rw [rename_all_files_in_dir, this]
    simp [List.length_map]

/-- C3 witness: a directory with one unformatted candidate and a bad hint
aborts with the directory untouched. -/
theorem C3_bad_hint_sat :
    rename_all_files_in_dir [⟨"a1".data, false, 0⟩] "p".data "x".data =
      .fatal Fatal.invalidFormat [⟨"a1".data, false, 0⟩] :=
  (C3_bad_hint [⟨"a1".data, false, 0⟩] "p".data "x".data (by decide) (by decide)).1
    ⟨"a1".data, by decide, by decide⟩

/-- C3 counterexample: contrary to the claim that every invocation with a
placeholder-free hint aborts fatally, a bulk rename over an empty directory
with the non-empty bad hint `x` completes normally. -/
theorem C3_cex :
    ("x".data : PyStr) ≠ [] ∧ substrIndex placeholder "x".data = none ∧
    rename_all_files_in_dir [] "p".data "x".data = .done (0, 0, 0) [] := by decide

/-- C4 (confirmed): `is_formatted` returns true exactly when the filename's
stem begins with the prefix and the remainder after stripping the prefix is a
non-empty string accepted in full by Python integer parsing. -/
theorem C4_is_formatted_spec (f pre : PyStr) :
    is_formatted f pre = true ↔
      pre <+: stemL f ∧ (stemL f).drop pre.length ≠ [] ∧
        pyIntOK ((stemL f).drop pre.length) = true := by
  show (if pre.isPrefixOf (stemL f) then pyIntOK ((stemL f).drop pre.length) else false)
      = true ↔ _
  by_cases h : pre.isPrefixOf (stemL f)
  · rw [if_pos h]
    constructor
    · intro hok
      refine ⟨List.isPrefixOf_iff_prefix.1 h, ?_, hok⟩
      intro hnil
      rw [hnil, pyIntOK_nil] at hok
      cases hok
    · exact fun hh => hh.2.2
  · rw [if_neg h]
    constructor
    · intro hf; cases hf
    · intro hh
      exact absurd (List.isPrefixOf_iff_prefix.2 hh.1) h

/-- C5 (amended): rename is idempotent provided the renamed file's name
decomposes back into prefix and index — which holds whenever the original
file has a non-empty extension, or the prefix contains no dot: if
`rename_file` succeeds, renaming the resulting file again with the same
prefix and hint returns false and leaves the directory unchanged. -/
theorem C5_rename_idem (d : List Entry) (f pre fmt nm : PyStr) (d' : List Entry)
    (hshape : suffixL f ≠ [] ∨ '.' ∉ pre)
    (hren : rename_file d f pre fmt = .ok (true, d'))
    (hnm : formatted_filename f pre fmt = .ok nm) :
    rename_file d' nm pre fmt = .ok (false, d') := by
  have hif : is_formatted f pre = false := by
    cases hx : is_formatted f pre with
    | false => rfl
    | true =>
      exfalso
      rw [rename_file, if_pos hx] at hren
      cases hren
  have hnil : nm ≠ [] := by
    intro hn
    rw [rename_file_eval d f pre fmt nm hif hnm, if_pos hn] at hren
    cases hren
  obtain ⟨i, hfi, hne1, hsh⟩ :
      ∃ i, find_index f fmt = .ok i ∧ i ≠ -1 ∧ nm = pre ++ py02d i ++ suffixL f := by
    cases hfi : find_index f fmt with
    | error e =>
      rw [formatted_filename_err f pre fmt e hfi] at hnm
      cases hnm
    | ok i =>
      rw [formatted_filename_eval f pre fmt i hfi] at hnm
      by_cases hi : i ≠ -1
      · rw [if_pos hi] at hnm
        injection hnm with hnm
        exact ⟨i, rfl, hi, hnm.symm⟩
      · rw [if_neg hi] at hnm
        injection hnm with hnm
        exact absurd hnm.symm hnil
  have hpos : 0 ≤ i := by
    rcases find_index_val f fmt i hfi with h1 | h1
    · exact absurd h1 hne1
    · exact h1
  have h02 : py02d i = py02dN i.toNat := by rw [py02d, if_pos hpos]
  have hform : is_formatted nm pre = true := by
    rw [hsh, h02]
    apply is_formatted_of_shape pre (py02dN i.toNat) (suffixL f) (py02dN_ne_nil _)
      (py02dN_all _)
    by_cases hsf : suffixL f = []
    · left
      refine ⟨hsf, ?_⟩
      rcases hshape with h1 | h1
      · exact absurd hsf h1
      · exact h1
    · right
      exact suffix_structure f hsf
  rw [rename_file, if_pos hform]

/-- C5 witness: renaming `a1` with prefix `p` (no dot) succeeds, producing
`p01`; renaming `p01` again is a no-op. -/
theorem C5_rename_idem_sat :
    rename_file [⟨"p01".data, false, 0⟩] "p01".data "p".data [] =
      .ok (false, [⟨"p01".data, false, 0⟩]) :=
  C5_rename_idem [⟨"a1".data, false, 0⟩] "a1".data "p".data [] "p01".data
    [⟨"p01".data, false, 0⟩] (Or.inr (by decide)) (by decide) (by decide)

/-- C5 counterexample: with prefix `a.b` (containing a dot) and the
extensionless file `z7`, the first rename produces `a.b07`, whose stem is
`a` — not recognized by `is_formatted` — so a second rename with the same
prefix and hint succeeds again, renaming the file to `a.b07.b07` instead of
returning false, contrary to the claim. -/
theorem C5_cex :
    rename_file [⟨"z7".data, false, 0⟩] "z7".data "a.b".data [] =
      .ok (true, [⟨"a.b07".data, false, 0⟩]) ∧
    rename_file [⟨"a.b07".data, false, 0⟩] "a.b07".data "a.b".data [] =
      .ok (true, [⟨"a.b07.b07".data, false, 0⟩]) ∧
    ([⟨"a.b07.b07".data, false, 0⟩] : List Entry) ≠ [⟨"a.b07".data, false, 0⟩] := by
  decide

/-- C6 (confirmed): when a file already exists at the computed target name in
the destination directory, `copy_file` returns false with the destination
(and in particular the existing file's contents) unchanged, as a skip, never
as an error — in both the already-formatted case (target is the source name)
and the formatted-name case. -/
theorem C6_no_overwrite (src : Entry) (dest : List DestFile) (pre fmt : PyStr) :
    (is_formatted src.name pre = true → src.name ∈ dest.map Prod.fst →
      copy_file src dest pre fmt = .ok (false, dest)) ∧
    (∀ nm, is_formatted src.name pre = false →
      formatted_filename src.name pre fmt = .ok nm → nm ≠ [] →
      nm ∈ dest.map Prod.fst → copy_file src dest pre fmt = .ok (false, dest)) := by
  constructor
  · intro hf hmem
    rw [copy_file, if_pos hf, copyInto, if_pos hmem]
  · intro nm hf hff hnil hmem
    rw [copy_file_eval src dest pre fmt nm hf hff, if_neg hnil, copyInto, if_pos hmem]

/-- C6 witness: copying `p01.jpg` (already formatted under prefix `p`) into a
destination that already holds a `p01.jpg` with different contents returns
false and leaves the destination unchanged. -/
theorem C6_no_overwrite_sat :
    copy_file ⟨"p01.jpg".data, false, 5⟩ [("p01.jpg".data, 9)] "p".data [] =
      .ok (false, [("p01.jpg".data, 9)]) :=
  (C6_no_overwrite ⟨"p01.jpg".data, false, 5⟩ [("p01.jpg".data, 9)] "p".data []).1
    (by decide) (by decide)

/-- C7 (confirmed): whenever a bulk rename or bulk copy completes with the
triple (succeeded, failed-or-skipped, total), succeeded plus
failed-or-skipped equals total, and total is the number of candidates the
directory scanner produced for the source directory. -/
theorem C7_counts (d : List Entry) (dd : List DestFile) (pre fmt : PyStr)
    (a b t : Nat) (d2 : List Entry) (dd2 : List DestFile) :
    (rename_all_files_in_dir d pre fmt = .done (a, b, t) d2 →
      a + b = t ∧ t = (to_process d).length) ∧
    (copy_all_files_in_dir d dd pre fmt = .done (a, b, t) dd2 →
      a + b = t ∧ t = (to_process d).length) := by
  constructor
  · intro hh
    rw [rename_all_files_in_dir] at hh
    obtain ⟨h1, h2⟩ :=
      renameLoop_counts pre fmt ((to_process d).map (·.name)) d 0 0 a b t d2 hh
    rw [List.length_map] at h2
    exact ⟨h1, by omega⟩
  · intro hh
    rw [copy_all_files_in_dir] at hh
    obtain ⟨h1, h2⟩ := copyLoop_counts pre fmt (to_process d) dd 0 0 a b t dd2 hh
    exact ⟨h1, by omega⟩

/-- C7 witness: a one-file directory renames with counts (1, 0, 1), and 1 is
the number of candidates. -/
theorem C7_counts_sat :
    1 + 0 = 1 ∧ 1 = (to_process [⟨"a1".data, false, 0⟩]).length :=
  (C7_counts [⟨"a1".data, false, 0⟩] [] "p".data [] 1 0 1
    [⟨"p01".data, false, 0⟩] []).1 (by decide)

/-- C8 (confirmed): when `find_index` extracts index `n` with 0 ≤ n ≤ 99,
`formatted_filename` renders prefix, then exactly two digit characters whose
value is `n`, then the extension; for n ≥ 100 it renders every decimal digit
of `n` with no truncation. -/
theorem C8_two_digit_render (f pre fmt : PyStr) (n : Int)
    (hfi : find_index f fmt = .ok n) (h0 : 0 ≤ n) :
    (n ≤ 99 →
      formatted_filename f pre fmt = .ok (pre ++ py02d n ++ suffixL f) ∧
      (py02d n).length = 2 ∧ (∀ c ∈ py02d n, c.isDigit = true) ∧
      (digitsToNat (py02d n) : Int) = n) ∧
    (100 ≤ n →
      formatted_filename f pre fmt = .ok (pre ++ natDigits n.toNat ++ suffixL f) ∧
      (digitsToNat (natDigits n.toNat) : Int) = n) := by
  have hne : n ≠ -1 := by omega
  have hff : formatted_filename f pre fmt = .ok (pre ++ py02d n ++ suffixL f) := by
    rw [formatted_filename_eval f pre fmt n hfi, if_pos hne]
  have h02 : py02d n = py02dN n.toNat := by rw [py02d, if_pos h0]
  constructor
  · intro h99
    have hlt : n.toNat < 100 := by omega
    obtain ⟨hb1, hb2⟩ := py02dN_lt100 n.toNat hlt
    refine ⟨hff, by rw [h02]; exact hb1, ?_, ?_⟩
    · rw [h02]; exact py02dN_all n.toNat
    · rw [h02, hb2]; omega
  · intro h100
    have h10 : 10 ≤ n.toNat := by omega
    refine ⟨?_, ?_⟩
    · rw [hff, h02, py02dN_eq_natDigits n.toNat h10]
    · rw [digitsToNat_natDigits]; omega

/-- C8 witness: filename `a07.png` with prefix `p` and no hint extracts index
7 and renders the two-digit target. -/
theorem C8_two_digit_render_sat :
    formatted_filename "a07.png".data "p".data [] =
      .ok ("p".data ++ py02d 7 ++ suffixL "a07.png".data) :=
  ((C8_two_digit_render "a07.png".data "p".data [] 7 (by decide) (by decide)).1
    (by decide)).1

/-- C9 (confirmed): `is_formatted` accepts any remainder Python's `int()`
parses — signed numbers, surrounding whitespace, digits with underscores —
so for any file whose stem is the prefix followed by such a remainder,
`is_formatted` returns true and `rename_file` returns false with the
directory unchanged. -/
theorem C9_int_like_accepted (d : List Entry) (f pre rest fmt : PyStr)
    (hstem : stemL f = pre ++ rest) (hrest : pyIntOK rest = true) :
    is_formatted f pre = true ∧ rename_file d f pre fmt = .ok (false, d) := by
  have hf : is_formatted f pre = true := by
    show (if pre.isPrefixOf (stemL f) then pyIntOK ((stemL f).drop pre.length) else false)
        = true
    rw [hstem,
      if_pos (List.isPrefixOf_iff_prefix.2 (List.prefix_append pre rest)),
      List.drop_left pre rest, hrest]
  exact ⟨hf, by rw [rename_file, if_pos hf]⟩

/-- C9 witness: the stems `p-3` (signed), `p 7 ` (whitespace) and `p1_0`
(underscore) are all treated as already formatted under prefix `p`, and
renaming them is refused. -/
theorem C9_int_like_accepted_sat :
    (is_formatted "p-3".data "p".data = true ∧
      rename_file [] "p-3".data "p".data [] = .ok (false, [])) ∧
    (is_formatted "p 7 ".data "p".data = true ∧
      rename_file [] "p 7 ".data "p".data [] = .ok (false, [])) ∧
    (is_formatted "p1_0".data "p".data = true ∧
      rename_file [] "p1_0".data "p".data [] = .ok (false, [])) :=
  ⟨C9_int_like_accepted [] "p-3".data "p".data "-3".data [] (by decide) (by decide),
   C9_int_like_accepted [] "p 7 ".data "p".data " 7 ".data [] (by decide) (by decide),
   C9_int_like_accepted [] "p1_0".data "p".data "1_0".data [] (by decide) (by decide)⟩

theorem dropWhile_append_all (p : Char → Bool) (xs ys : PyStr)
    (h : ∀ c ∈ xs, p c = true) : (xs ++ ys).dropWhile p = ys.dropWhile p := by
  induction xs with
  | nil => simp
  | cons c t ih =>
    rw [List.cons_append, List.dropWhile_cons, if_pos (h c (List.mem_cons_self c t))]
    exact ih (fun x hx => h x (List.mem_cons_of_mem c hx))

theorem dropWhile_head_false (p : Char → Bool) (l : PyStr)
    (h : ∃ c ∈ l, p c = false) : ∃ d r, l.dropWhile p = d :: r ∧ p d = false := by
  induction l with
  | nil => obtain ⟨c, hc, _⟩ := h; cases hc
  | cons c t ih =>
    by_cases hc : p c = true
    · rw [List.dropWhile_cons, if_pos hc]
      apply ih
      obtain ⟨x, hx, hpx⟩ := h
      rcases List.mem_cons.1 hx with h1 | h1
      · subst h1; rw [hc] at hpx; cases hpx
      · exact ⟨x, h1, hpx⟩
    · rw [Bool.not_eq_true] at hc
      exact ⟨c, t, by rw [List.dropWhile_cons, if_neg (by rw [hc]; exact Bool.false_ne_true)],
        hc⟩

/-- C10 (confirmed): index search spans the whole filename, extension
included. For a file whose stem has no ASCII digit but whose extension does,
`find_index` with no hint returns the value of the extension's first digit
run — not the sentinel `-1` — and `formatted_filename` returns a non-empty
target name. -/
theorem C10_ext_digits (f pre : PyStr)
    (h1 : ∀ c ∈ stemL f, c.isDigit = false)
    (h2 : ∃ c ∈ suffixL f, c.isDigit = true) :
    find_index f [] =
      .ok ((digitsToNat (((suffixL f).dropWhile (fun c => !c.isDigit)).takeWhile
        (fun c => c.isDigit)) : Nat) : Int) ∧
    find_index f [] ≠ .ok (-1) ∧
    formatted_filename f pre [] ≠ .ok [] := by
  have hstemall : ∀ c ∈ stemL f, ((fun c => !c.isDigit) c) = true := by
    intro c hc
    simp [h1 c hc]
  have hdw : f.dropWhile (fun c => !c.isDigit) =
      (suffixL f).dropWhile (fun c => !c.isDigit) := by
    conv_lhs => rw [← stem_append_suffix f]
    exact dropWhile_append_all _ _ _ hstemall
  obtain ⟨dd, rr, hdr, hddf⟩ := dropWhile_head_false (fun c => !c.isDigit) (suffixL f)
    (by
      obtain ⟨c, hc, hcd⟩ := h2
      exact ⟨c, hc, by simp [hcd]⟩)
  have hdd : dd.isDigit = true := by simpa using hddf
  have hval : find_index f [] =
      .ok ((digitsToNat (((suffixL f).dropWhile (fun c => !c.isDigit)).takeWhile
        (fun c => c.isDigit)) : Nat) : Int) := by
    show PyResult.ok (scanFrom (f.dropWhile (fun c => !c.isDigit))) = _
    rw [hdw, hdr, scanFrom]
    rw [List.takeWhile_cons, if_pos hdd]
    simp
  refine ⟨hval, ?_, ?_⟩
  · rw [hval]
    intro hcon
    injection hcon with hcon
    omega
  · have hvne : ((digitsToNat (((suffixL f).dropWhile (fun c => !c.isDigit)).takeWhile
        (fun c => c.isDigit)) : Nat) : Int) ≠ -1 := by omega
    rw [formatted_filename_eval f pre [] _ hval, if_pos hvne]
    intro hcon
    injection hcon with hcon
    have hmid2 : py02d ((digitsToNat (((suffixL f).dropWhile (fun c => !c.isDigit)).takeWhile
        (fun c => c.isDigit)) : Nat) : Int) = [] := by
      rcases List.append_eq_nil.1 hcon with ⟨hmid, _⟩
      rcases List.append_eq_nil.1 hmid with ⟨_, hmid2⟩
      exact hmid2
    rw [py02d, if_pos (by omega)] at hmid2
    exact py02dN_ne_nil _ hmid2

/-- C10 witness: `song.mp3` has a digit only in its extension; the extracted
index is that digit run and the target name is non-empty. -/
theorem C10_ext_digits_sat :
    find_index "song.mp3".data [] =
      .ok ((digitsToNat ((((suffixL "song.mp3".data)).dropWhile
        (fun c => !c.isDigit)).takeWhile (fun c => c.isDigit)) : Nat) : Int) ∧
    find_index "song.mp3".data [] ≠ .ok (-1) ∧
    formatted_filename "song.mp3".data "p".data [] ≠ .ok [] :=
  C10_ext_digits "song.mp3".data "p".data (by decide) (by decide)

end Mrename
